import Mathlib

/-!
Shallow embedding of `main.go` of DeadSocketDropper, a TCP-connection
monitor.  The program periodically parses the output of an external `ss`
invocation, merges the observed connections into a mutable map
`connections : map[string]*ConnectionInfo`, and applies kill/eviction
policy to every tracked entry.

Modelling choices:
  * Go strings are modelled as `List Char` (`Str`), which makes the
    character-level parsing (`regexp`, `strings.Fields`, `strings.Split`)
    directly provable.
  * `time.Time` values are modelled as `Int` nanoseconds; `time.Duration`
    comparisons are on the same scale, with `time.Minute` as `minuteNs`,
    exactly the unit conversion `time.Duration(m) * time.Minute` performs.
  * The Go map is modelled as an association list with unique keys
    (Go maps cannot hold duplicate keys; `NoDupKeys` captures this where a
    theorem needs it).  Map assignment for a present key rewrites the
    entry in place; for an absent key it appends.  Go's unspecified map
    iteration order is harmless here because the kill/removal decision for
    an entry depends only on that entry's own fields.
  * The two external commands are kept abstract: the snapshot provider
    yields raw text lines (or fails, `Option`), and the termination
    actuator is an oracle `Str → Str → Bool` giving the success/failure of
    each `ss --kill` invocation.  `monitorConnections` discards
    `killConnection`'s result exactly as the Go code does.
  * Log output (`fmt.Printf`/`log.Printf`) is not modelled, except that
    kill and removal actions are recorded as `CycleEvent`s so that "the
    actuator is invoked exactly once" is statable.
-/

set_option autoImplicit false

namespace DeadSocketDropper

/-- Go strings, modelled character by character. -/
abbrev Str := List Char

/-- `time.Minute` in nanoseconds (Go `time.Duration` counts nanoseconds). -/
def minuteNs : Int := 60000000000

/-- The `ConnectionInfo` struct of `main.go`: state of a tracked connection. -/
structure ConnectionInfo where
  inode : Str
  timeAdded : Int
  lastSeen : Int
  isActive : Bool
  connectionID : Str
deriving DecidableEq, Repr

/-- The separator `" -> "` that `fmt.Sprintf("%s -> %s", local, peer)`
puts between the two endpoints, and that `killConnection` splits on. -/
def arrowSep : Str := [' ', '-', '>', ' ']

/-- Helper for `inodeRegex`: if `cs` starts with `ino:` followed by at
least one digit, return the maximal digit run (the regex group `[0-9]+`
is greedy); otherwise `none`. -/
def inoAt : Str → Option Str
  | 'i' :: 'n' :: 'o' :: ':' :: rest =>
    let ds := rest.takeWhile Char.isDigit
    if ds.isEmpty then none else some ds
  | _ => none

/-- `inodeRegex.FindStringSubmatch(line)` for the pattern `ino:([0-9]+)`:
the captured group of the leftmost match, scanning start positions left to
right (Go's regexp returns the leftmost match). -/
def findInode : Str → Option Str
  | [] => none
  | c :: rest =>
    match inoAt (c :: rest) with
    | some ds => some ds
    | none => findInode rest

/-- `strings.Fields` worker: split on whitespace runs, dropping empty
fields; `acc` is the current field being read, in reverse. -/
def goFieldsAux : Str → Str → List Str
  | [], acc => if acc.isEmpty then [] else [acc.reverse]
  | c :: rest, acc =>
    if c.isWhitespace then
      if acc.isEmpty then goFieldsAux rest [] else acc.reverse :: goFieldsAux rest []
    else goFieldsAux rest (c :: acc)

/-- `strings.Fields(line)`: the whitespace-separated fields of a line. -/
def goFields (cs : Str) : List Str := goFieldsAux cs []

/-- The body of the scanner loop of `listCurrentConnections`, for one line:
extract the inode via `inodeRegex` (missing pattern: log a warning and
`continue`, producing nothing); with at least 5 fields build a record
whose `ConnectionID` is `fields[3] ++ " -> " ++ fields[4]`; with fewer
fields the line silently produces nothing. -/
def parseLine (line : Str) : List ConnectionInfo :=
  match findInode line with
  | none => []
  | some ino =>
    if (goFields line).length ≥ 5 then
      [{ inode := ino,
         timeAdded := 0,
         lastSeen := 0,
         isActive := true,
         connectionID :=
           (goFields line).getD 3 [] ++ arrowSep ++ (goFields line).getD 4 [] }]
    else []

/-- `listCurrentConnections`, given the text lines the external `ss`
command printed: the concatenation of the records of each line, in order.
(The command invocation itself is external; a failed invocation is the
`none` snapshot in `monitorConnections`.) -/
def listCurrentConnections (lines : List Str) : List ConnectionInfo :=
  (lines.map parseLine).flatten

/-- The tracking table: the Go map `connections`, as an association list. -/
abbrev Table := List (Str × ConnectionInfo)

/-- Go map read `connections[k]`. -/
def lookupTable (t : Table) (k : Str) : Option ConnectionInfo :=
  match t.find? (fun p => p.1 == k) with
  | some p => some p.2
  | none => none

/-- Go map assignment to a key that is present: rewrite that entry. -/
def updateEntry (t : Table) (k : Str) (v : ConnectionInfo) : Table :=
  t.map (fun p => if p.1 == k then (k, v) else p)

/-- `strings.Split(cs, " -> ")`: split at every non-overlapping leftmost
occurrence of the four-character separator. -/
def splitArrow : Str → List Str
  | [] => [[]]
  | c :: rest =>
    if (c :: rest).take 4 = arrowSep then [] :: splitArrow (rest.drop 3)
    else
      match splitArrow rest with
      | [] => [[c]]
      | w :: ws => (c :: w) :: ws
termination_by cs => cs.length
decreasing_by
  · simp only [List.length_drop, List.length_cons]; omega
  · simp only [List.length_cons]; omega

/-- Outcome of one `killConnection` call. -/
inductive KillOutcome where
  | notFound
  | invalidFormat
  | execResult (localAddr peerAddr : Str) (ok : Bool)
deriving DecidableEq, Repr

/-- `killConnection(inode)`: look the inode up in the table, split its
`ConnectionID` on `" -> "`; a split with other than exactly two parts is
the invalid-format error; otherwise run `ss --kill` (the external
actuator oracle decides success). -/
def killConnection (actuator : Str → Str → Bool) (t : Table) (inode : Str) :
    KillOutcome :=
  match lookupTable t inode with
  | none => KillOutcome.notFound
  | some ci =>
    match splitArrow ci.connectionID with
    | [localAddr, peerAddr] =>
      KillOutcome.execResult localAddr peerAddr (actuator localAddr peerAddr)
    | _ => KillOutcome.invalidFormat

/-- Observable actions of the policy sweep of one cycle. -/
inductive CycleEvent where
  | killed (inode : Str) (outcome : KillOutcome)
  | removed (inode : Str)
deriving DecidableEq, Repr

/-- One step of the merge loop of `monitorConnections`: a tracked inode is
refreshed (`LastSeen = now`, `IsActive = true`); an unknown inode is
inserted, with `TimeAdded` and `LastSeen` set to `now` right after the
map assignment (the Go code stores the pointer, then mutates it). -/
def upsertConn (now : Int) (t : Table) (c : ConnectionInfo) : Table :=
  match lookupTable t c.inode with
  | some ci => updateEntry t c.inode { ci with lastSeen := now, isActive := true }
  | none => t ++ [(c.inode, { c with timeAdded := now, lastSeen := now })]

/-- The `conn.IsActive = false` loop at the top of `monitorConnections`. -/
def markAllInactive (t : Table) : Table :=
  t.map (fun p => (p.1, { p.2 with isActive := false }))

/-- The merge phase of one cycle: mark every entry inactive, then fold the
snapshot records into the table in order. -/
def mergePhase (now : Int) (conns : List ConnectionInfo) (t : Table) : Table :=
  conns.foldl (upsertConn now) (markAllInactive t)

/-- The kill/removal sweep of `monitorConnections`, entry by entry.
`full` is the merged table: `killConnection` reads the live map, which
still contains the entry being processed (its own deletion happens only
after the call returns, and deletions of other inodes never change what
`killConnection` reads for this one).  Returns the surviving entries and
the kill/removal events. -/
def sweepEntries (actuator : Str → Str → Bool)
    (maxActiveDuration maxInactiveDuration now : Int) (full : Table) :
    Table → Table × List CycleEvent
  | [] => ([], [])
  | (k, c) :: rest =>
    let r := sweepEntries actuator maxActiveDuration maxInactiveDuration now full rest
    if now - c.timeAdded > maxActiveDuration ∧ c.isActive = true then
      (r.1, CycleEvent.killed k (killConnection actuator full k) :: r.2)
    else if now - c.lastSeen > maxInactiveDuration then
      (r.1, CycleEvent.removed k :: r.2)
    else ((k, c) :: r.1, r.2)

/-- One monitoring cycle (`monitorConnections`).  `snapshot` is the parsed
result of `listCurrentConnections`, or `none` when the enumeration failed,
in which case the function logs and returns with the table untouched.
Durations are configured in minutes and converted exactly as
`time.Duration(maxActiveDurMin) * time.Minute` does. -/
def monitorConnections (actuator : Str → Str → Bool)
    (maxActiveDurMin maxInactiveDurMin : Int) (now : Int)
    (snapshot : Option (List ConnectionInfo)) (t : Table) :
    Table × List CycleEvent :=
  match snapshot with
  | none => (t, [])
  | some conns =>
    let merged := mergePhase now conns t
    sweepEntries actuator (maxActiveDurMin * minuteNs)
      (maxInactiveDurMin * minuteNs) now merged merged

/-- A Go map never holds two entries with the same key. -/
def NoDupKeys (t : Table) : Prop := (t.map Prod.fst).Nodup

/-- Number of entries of the table carrying key `k`. -/
def countKey (t : Table) (k : Str) : Nat := (t.filter (fun p => p.1 == k)).length

/-- Tables reachable by running cycles (with arbitrary snapshot results)
from the empty initial map, with `time.Now()` non-decreasing across
cycles; the second component is the time of the last cycle. -/
inductive Reachable (actuator : Str → Str → Bool)
    (maxActiveDurMin maxInactiveDurMin : Int) : Table → Int → Prop where
  | init (n : Int) : Reachable actuator maxActiveDurMin maxInactiveDurMin [] n
  | step {t : Table} {n : Int} (nNext : Int)
      (snapshot : Option (List ConnectionInfo)) :
      Reachable actuator maxActiveDurMin maxInactiveDurMin t n →
      n ≤ nNext →
      Reachable actuator maxActiveDurMin maxInactiveDurMin
        (monitorConnections actuator maxActiveDurMin maxInactiveDurMin nNext
          snapshot t).1 nNext

/-- Tables reachable from the empty map by cycles whose snapshots come
from the parser (`listCurrentConnections`).  A cycle whose enumeration
fails leaves the table unchanged, so it needs no constructor. -/
inductive ReachableP (actuator : Str → Str → Bool)
    (maxActiveDurMin maxInactiveDurMin : Int) : Table → Prop where
  | init : ReachableP actuator maxActiveDurMin maxInactiveDurMin []
  | step {t : Table} (now : Int) (lines : List Str) :
      ReachableP actuator maxActiveDurMin maxInactiveDurMin t →
      ReachableP actuator maxActiveDurMin maxInactiveDurMin
        (monitorConnections actuator maxActiveDurMin maxInactiveDurMin now
          (some (listCurrentConnections lines)) t).1

/-- The always-succeeding termination actuator, for concrete scenarios. -/
def alwaysOk : Str → Str → Bool := fun _ _ => true

/-! The worked example of the spec: `max-active=120m`, `max-inactive=60m`,
`check-interval=30m`; identifier `abc` observed in every snapshot from
t=0 on, identifier `xyz` observed only at t=0. -/

/-- Snapshot record for identifier `abc`. -/
def abcRec : ConnectionInfo :=
  { inode := "abc".data, timeAdded := 0, lastSeen := 0, isActive := true,
    connectionID := "1.1.1.1:50090 -> 2.2.2.2:40000".data }

/-- Snapshot record for identifier `xyz`. -/
def xyzRec : ConnectionInfo :=
  { inode := "xyz".data, timeAdded := 0, lastSeen := 0, isActive := true,
    connectionID := "1.1.1.1:50090 -> 3.3.3.3:40000".data }

/-- One cycle of the worked example, at minute `m`. -/
def exampleCycle (m : Int) (snap : List ConnectionInfo) (t : Table) :
    Table × List CycleEvent :=
  monitorConnections alwaysOk 120 60 (m * minuteNs) (some snap) t

/-- Example table after the cycle at t=0 (both identifiers observed). -/
def tableAt0 : Table := (exampleCycle 0 [abcRec, xyzRec] []).1

/-- Example table after the cycle at t=30 (only `abc` observed). -/
def tableAt30 : Table := (exampleCycle 30 [abcRec] tableAt0).1

/-- Example table after the cycle at t=60. -/
def tableAt60 : Table := (exampleCycle 60 [abcRec] tableAt30).1

/-- Example table after the cycle at t=90. -/
def tableAt90 : Table := (exampleCycle 90 [abcRec] tableAt60).1

/-- Example table after the cycle at t=120. -/
def tableAt120 : Table := (exampleCycle 120 [abcRec] tableAt90).1

/-- The full result (table and events) of the example cycle at t=150. -/
def resultAt150 : Table × List CycleEvent := exampleCycle 150 [abcRec] tableAt120

/-- Is this event a termination-actuator invocation for inode `k`? -/
def isKillEventFor (k : Str) : CycleEvent → Bool
  | CycleEvent.killed i _ => i == k
  | CycleEvent.removed _ => false

instance decNoDupKeys (t : Table) : Decidable (NoDupKeys t) :=
  List.nodupDecidable _

/-- Every entry of the table satisfies
`TimeAdded ≤ LastSeen ≤ bound` (the time of the last completed cycle). -/
def TimeOrdered (t : Table) (bound : Int) : Prop :=
  ∀ k c, (k, c) ∈ t → c.timeAdded ≤ c.lastSeen ∧ c.lastSeen ≤ bound

/-- Every entry's `IsActive` flag is equivalent to `seen` at its key. -/
def ActiveIffSeen (t : Table) (seen : Str → Prop) : Prop :=
  ∀ k c, (k, c) ∈ t → (c.isActive = true ↔ seen k)

/-- Every entry's `ConnectionID` has the `local ++ " -> " ++ peer` shape
with whitespace-free endpoint strings. -/
def GoodID (t : Table) : Prop :=
  ∀ k c, (k, c) ∈ t → ∃ l p, c.connectionID = l ++ arrowSep ++ p ∧
    (∀ ch ∈ l, ch.isWhitespace = false) ∧ (∀ ch ∈ p, ch.isWhitespace = false)

/-! ### Concrete data for witnesses -/

/-- The always-failing termination actuator. -/
def neverOk : Str → Str → Bool := fun _ _ => false

/-- The `abc` entry as tracked right after the t=0 cycle. -/
def trackedAbc0 : ConnectionInfo :=
  { inode := "abc".data, timeAdded := 0, lastSeen := 0, isActive := true,
    connectionID := abcRec.connectionID }

/-- The `abc` entry as tracked right after the t=30 cycle. -/
def trackedAbc30 : ConnectionInfo :=
  { inode := "abc".data, timeAdded := 0, lastSeen := 30 * minuteNs,
    isActive := true, connectionID := abcRec.connectionID }

/-- The `abc` entry as it stands in the merged table of a cycle at t=150. -/
def mergedAbc150 : ConnectionInfo :=
  { inode := "abc".data, timeAdded := 0, lastSeen := 150 * minuteNs,
    isActive := true, connectionID := abcRec.connectionID }

/-- Table tracking only `abc`, produced by one cycle at t=0. -/
def tableAbcOnly : Table :=
  (monitorConnections alwaysOk 120 60 0 (some [abcRec]) []).1

/-- A well-formed `ss` output line with inode 42. -/
def goodLine : Str := "ESTAB 0 0 1.2.3.4:50090 5.6.7.8:9 users ino:42".data

/-- A line without the `ino:<digits>` pattern. -/
def badLine : Str := "garbage with no identifier".data

/-- A line with the inode pattern but fewer than five fields. -/
def shortLine : Str := "a b ino:12".data

/-- The connection-42 entry as it stands right after a cycle at t=0. -/
def tracked42 : ConnectionInfo :=
  { inode := "42".data, timeAdded := 0, lastSeen := 0, isActive := true,
    connectionID := "1.2.3.4:50090 -> 5.6.7.8:9".data }

/-- Table tracking connection 42, produced from `goodLine` at t=0. -/
def table42 : Table :=
  (monitorConnections alwaysOk 120 60 0
    (some (listCurrentConnections [goodLine])) []).1

/-- The connection-42 entry as merged by a later cycle at t=200 minutes. -/
def merged42 : ConnectionInfo :=
  { inode := "42".data, timeAdded := 0, lastSeen := 200 * minuteNs,
    isActive := true, connectionID := "1.2.3.4:50090 -> 5.6.7.8:9".data }

/-- First of two snapshot records sharing inode 77. -/
def dupRec1 : ConnectionInfo :=
  { inode := "77".data, timeAdded := 0, lastSeen := 0, isActive := true,
    connectionID := "1.1.1.1:50090 -> 9.9.9.9:1".data }

/-- Second of two snapshot records sharing inode 77. -/
def dupRec2 : ConnectionInfo :=
  { inode := "77".data, timeAdded := 0, lastSeen := 0, isActive := true,
    connectionID := "1.1.1.1:50090 -> 8.8.8.8:2".data }

/-! ### Lemmas about the table primitives -/

theorem lookupTable_eq_none_iff {t : Table} {k : Str} :
    lookupTable t k = none ↔ ∀ c, (k, c) ∉ t := by
  unfold lookupTable
  constructor
  · intro h c hc
    cases hf : t.find? (fun p => p.1 == k) with
    | none =>
      have := List.find?_eq_none.mp hf _ hc
      simp at this
    | some p => rw [hf] at h; simp at h
  · intro h
    cases hf : t.find? (fun p => p.1 == k) with
    | none => rfl
    | some p =>
      have hm := List.mem_of_find?_eq_some hf
      have hk : p.1 = k := by simpa using List.find?_some hf
      refine absurd ?_ (h p.2)
      rw [← hk, Prod.mk.eta]
      exact hm

theorem lookupTable_mem {t : Table} {k : Str} {c : ConnectionInfo}
    (h : lookupTable t k = some c) : (k, c) ∈ t := by
  unfold lookupTable at h
  cases hf : t.find? (fun p => p.1 == k) with
  | none => rw [hf] at h; simp at h
  | some p =>
    rw [hf] at h
    have hm := List.mem_of_find?_eq_some hf
    have hp := List.find?_some hf
    have hk : p.1 = k := by simpa using hp
    have hc : p.2 = c := by simpa using h
    rw [← hk, ← hc]; exact hm

theorem lookupTable_ne_none_of_mem {t : Table} {k : Str} {c : ConnectionInfo}
    (h : (k, c) ∈ t) : lookupTable t k ≠ none := by
  intro hn
  exact lookupTable_eq_none_iff.mp hn c h

theorem keys_markAllInactive (t : Table) :
    (markAllInactive t).map Prod.fst = t.map Prod.fst := by
  unfold markAllInactive
  rw [List.map_map]
  rfl

theorem mem_markAllInactive {t : Table} {k : Str} {c : ConnectionInfo} :
    (k, c) ∈ markAllInactive t ↔
      ∃ c₀, (k, c₀) ∈ t ∧ c = { c₀ with isActive := false } := by
  unfold markAllInactive
  rw [List.mem_map]
  constructor
  · rintro ⟨⟨k₀, c₀⟩, hm, he⟩
    refine ⟨c₀, ?_, (congrArg Prod.snd he).symm⟩
    have h1 : k₀ = k := congrArg Prod.fst he
    rwa [h1] at hm
  · rintro ⟨c₀, hm, he⟩
    exact ⟨(k, c₀), hm, by rw [he]⟩

theorem lookupTable_markAllInactive (t : Table) (k : Str) :
    lookupTable (markAllInactive t) k =
      (lookupTable t k).map (fun c => { c with isActive := false }) := by
  induction t with
  | nil => rfl
  | cons p rest ih =>
    by_cases h : p.1 = k
    · unfold markAllInactive lookupTable
      simp only [List.map_cons]
      rw [List.find?_cons_of_pos _ (by simpa using h),
        List.find?_cons_of_pos _ (by simpa using h)]
      rfl
    · unfold markAllInactive lookupTable at *
      simp only [List.map_cons] at *
      rw [List.find?_cons_of_neg _ (by simpa using h),
        List.find?_cons_of_neg _ (by simpa using h)]
      exact ih

theorem keys_updateEntry (t : Table) (k : Str) (v : ConnectionInfo) :
    (updateEntry t k v).map Prod.fst = t.map Prod.fst := by
  unfold updateEntry
  rw [List.map_map]
  apply List.map_congr_left
  intro p _
  by_cases h : p.1 = k <;> simp [h]

theorem mem_updateEntry_of_ne {t : Table} {k k' : Str} {v c : ConnectionInfo}
    (h : k' ≠ k) : (k', c) ∈ updateEntry t k v ↔ (k', c) ∈ t := by
  unfold updateEntry
  constructor
  · intro hm
    obtain ⟨⟨k₀, c₀⟩, hm₀, he⟩ := List.mem_map.mp hm
    dsimp only at he
    by_cases hk : k₀ = k
    · rw [if_pos (by simpa using hk)] at he
      exact absurd (congrArg Prod.fst he) (Ne.symm h)
    · rw [if_neg (by simpa using hk)] at he
      rwa [he] at hm₀
  · intro hm
    refine List.mem_map.mpr ⟨(k', c), hm, ?_⟩
    dsimp only
    rw [if_neg (by simpa using h)]

theorem mem_updateEntry_self {t : Table} {k : Str} {v c : ConnectionInfo}
    (h : (k, c) ∈ updateEntry t k v) : c = v := by
  unfold updateEntry at h
  obtain ⟨⟨k₀, c₀⟩, hm₀, he⟩ := List.mem_map.mp h
  dsimp only at he
  by_cases hk : k₀ = k
  · rw [if_pos (by simpa using hk)] at he
    exact (congrArg Prod.snd he).symm
  · rw [if_neg (by simpa using hk)] at he
    exact absurd (congrArg Prod.fst he) hk

theorem mem_updateEntry_src {t : Table} {k k' : Str} {v c : ConnectionInfo}
    (h : (k', c) ∈ updateEntry t k v) : (k', c) ∈ t ∨ c = v := by
  by_cases hk : k' = k
  · exact Or.inr (mem_updateEntry_self (hk ▸ h))
  · exact Or.inl ((mem_updateEntry_of_ne hk).mp h)

theorem lookupTable_updateEntry_self {t : Table} {k : Str}
    {v c₀ : ConnectionInfo} (h : lookupTable t k = some c₀) :
    lookupTable (updateEntry t k v) k = some v := by
  induction t with
  | nil => simp [lookupTable, List.find?] at h
  | cons p rest ih =>
    by_cases hp : p.1 = k
    · unfold updateEntry lookupTable
      simp only [List.map_cons]
      rw [if_pos (by simpa using hp)]
      rw [List.find?_cons_of_pos _ (by simp)]
    · unfold updateEntry lookupTable at *
      simp only [List.map_cons] at *
      rw [if_neg (by simpa using hp)]
      rw [List.find?_cons_of_neg _ (by simpa using hp)] at h ⊢
      exact ih h

theorem key_mem_of_mem {t : Table} {k : Str} {c : ConnectionInfo}
    (h : (k, c) ∈ t) : k ∈ t.map Prod.fst :=
  List.mem_map.mpr ⟨(k, c), h, rfl⟩

theorem exists_mem_of_key {t : Table} {k : Str} (h : k ∈ t.map Prod.fst) :
    ∃ c, (k, c) ∈ t := by
  obtain ⟨⟨k₀, c₀⟩, hm, hk⟩ := List.mem_map.mp h
  exact ⟨c₀, by rw [← hk]; exact hm⟩

theorem mem_upsertConn {now : Int} {t : Table} {r : ConnectionInfo}
    {k : Str} {c : ConnectionInfo} (h : (k, c) ∈ upsertConn now t r) :
    ((k, c) ∈ t ∧ k ≠ r.inode) ∨
      (k = r.inode ∧ ∃ ci, lookupTable t r.inode = some ci ∧
        c = { ci with lastSeen := now, isActive := true }) ∨
      (k = r.inode ∧ c = { r with timeAdded := now, lastSeen := now }) := by
  unfold upsertConn at h
  cases hl : lookupTable t r.inode with
  | some ci =>
    rw [hl] at h
    by_cases hk : k = r.inode
    · subst hk
      exact Or.inr (Or.inl ⟨rfl, ci, rfl, mem_updateEntry_self h⟩)
    · exact Or.inl ⟨(mem_updateEntry_of_ne hk).mp h, hk⟩
  | none =>
    rw [hl] at h
    rcases List.mem_append.mp h with h1 | h1
    · refine Or.inl ⟨h1, ?_⟩
      intro hk
      exact lookupTable_eq_none_iff.mp hl c (hk ▸ h1)
    · have he := List.mem_singleton.mp h1
      exact Or.inr (Or.inr ⟨congrArg Prod.fst he, congrArg Prod.snd he⟩)

theorem keys_upsertConn_of_some {now : Int} {t : Table} {r ci : ConnectionInfo}
    (h : lookupTable t r.inode = some ci) :
    (upsertConn now t r).map Prod.fst = t.map Prod.fst := by
  unfold upsertConn
  rw [h]
  exact keys_updateEntry ..

theorem keys_upsertConn_of_none {now : Int} {t : Table} {r : ConnectionInfo}
    (h : lookupTable t r.inode = none) :
    (upsertConn now t r).map Prod.fst = t.map Prod.fst ++ [r.inode] := by
  unfold upsertConn
  rw [h]
  simp

theorem noDupKeys_upsertConn {now : Int} {t : Table} {r : ConnectionInfo}
    (h : NoDupKeys t) : NoDupKeys (upsertConn now t r) := by
  cases hl : lookupTable t r.inode with
  | some ci =>
    unfold NoDupKeys
    rw [keys_upsertConn_of_some hl]
    exact h
  | none =>
    unfold NoDupKeys
    rw [keys_upsertConn_of_none hl, List.nodup_append]
    refine ⟨h, List.nodup_singleton _, ?_⟩
    intro a ha hb
    have hae : a = r.inode := by simpa using hb
    subst hae
    obtain ⟨c, hc⟩ := exists_mem_of_key ha
    exact lookupTable_eq_none_iff.mp hl c hc

theorem noDupKeys_foldl_upsert (now : Int) (rs : List ConnectionInfo)
    {t : Table} (h : NoDupKeys t) : NoDupKeys (rs.foldl (upsertConn now) t) := by
  induction rs generalizing t with
  | nil => exact h
  | cons r rs ih => exact ih (noDupKeys_upsertConn h)

theorem noDupKeys_markAllInactive {t : Table} (h : NoDupKeys t) :
    NoDupKeys (markAllInactive t) := by
  unfold NoDupKeys
  rw [keys_markAllInactive]
  exact h

theorem noDupKeys_mergePhase (now : Int) (conns : List ConnectionInfo)
    {t : Table} (h : NoDupKeys t) : NoDupKeys (mergePhase now conns t) :=
  noDupKeys_foldl_upsert now conns (noDupKeys_markAllInactive h)

theorem sweepEntries_fst_sublist (a : Str → Str → Bool) (mA mI now : Int)
    (full : Table) (l : Table) :
    (sweepEntries a mA mI now full l).1.Sublist l := by
  induction l with
  | nil => simp [sweepEntries]
  | cons p rest ih =>
    obtain ⟨k, c⟩ := p
    simp only [sweepEntries]
    split
    · exact ih.cons _
    · split
      · exact ih.cons _
      · exact ih.cons₂ _

theorem mem_of_mem_sweep {a : Str → Str → Bool} {mA mI now : Int}
    {full : Table} {l : Table} {p : Str × ConnectionInfo}
    (h : p ∈ (sweepEntries a mA mI now full l).1) : p ∈ l :=
  (sweepEntries_fst_sublist a mA mI now full l).subset h

theorem noDupKeys_sweep {a : Str → Str → Bool} {mA mI now : Int}
    {full : Table} {l : Table} (h : NoDupKeys l) :
    NoDupKeys (sweepEntries a mA mI now full l).1 :=
  List.Nodup.sublist ((sweepEntries_fst_sublist a mA mI now full l).map Prod.fst) h

theorem noDupKeys_monitorConnections (a : Str → Str → Bool)
    (mA mI now : Int) (snap : Option (List ConnectionInfo)) {t : Table}
    (h : NoDupKeys t) : NoDupKeys (monitorConnections a mA mI now snap t).1 := by
  cases snap with
  | none => exact h
  | some conns => exact noDupKeys_sweep (noDupKeys_mergePhase now conns h)

theorem sweepEntries_fst_indep (a a' : Str → Str → Bool) (mA mI now : Int)
    (full full' : Table) (l : Table) :
    (sweepEntries a mA mI now full l).1 = (sweepEntries a' mA mI now full' l).1 := by
  induction l with
  | nil => rfl
  | cons p rest ih =>
    obtain ⟨k, c⟩ := p
    simp only [sweepEntries]
    split
    · exact ih
    · split
      · exact ih
      · exact congrArg (List.cons (k, c)) ih

theorem sweep_kill_count_zero (a : Str → Str → Bool) (mA mI now : Int)
    (full : Table) {k : Str} {l : Table} (h : ∀ c, (k, c) ∉ l) :
    (sweepEntries a mA mI now full l).2.countP (isKillEventFor k) = 0 := by
  induction l with
  | nil => rfl
  | cons p rest ih =>
    obtain ⟨k₀, c₀⟩ := p
    have hk₀ : k₀ ≠ k := by
      intro he
      exact h c₀ (by rw [← he]; exact List.mem_cons_self _ _)
    have hrest : ∀ c, (k, c) ∉ rest := fun c hc => h c (List.mem_cons_of_mem _ hc)
    simp only [sweepEntries]
    split
    · simp only [List.countP_cons, isKillEventFor]
      rw [ih hrest]
      simp [hk₀]
    · split
      · simp only [List.countP_cons, isKillEventFor]
        rw [ih hrest]
        simp
      · exact ih hrest

theorem sweep_kill_fires {a : Str → Str → Bool} {mA mI now : Int}
    {full : Table} {k : Str} {c : ConnectionInfo} {l : Table}
    (hnd : NoDupKeys l) (hm : (k, c) ∈ l)
    (hcond : now - c.timeAdded > mA ∧ c.isActive = true) :
    (sweepEntries a mA mI now full l).2.countP (isKillEventFor k) = 1 ∧
      ∀ c', (k, c') ∉ (sweepEntries a mA mI now full l).1 := by
  induction l with
  | nil => exact absurd hm (List.not_mem_nil _)
  | cons p rest ih =>
    obtain ⟨k₀, c₀⟩ := p
    have hnd' : NoDupKeys rest ∧ k₀ ∉ rest.map Prod.fst := by
      have := hnd
      unfold NoDupKeys at this
      rw [List.map_cons, List.nodup_cons] at this
      exact ⟨this.2, this.1⟩
    by_cases hk : k₀ = k
    · subst hk
      have hc : c₀ = c := by
        rcases List.mem_cons.mp hm with he | he
        · exact (congrArg Prod.snd he).symm
        · exact absurd (key_mem_of_mem he) hnd'.2
      subst hc
      have habs : ∀ c', (k₀, c') ∉ rest := by
        intro c' hc'
        exact hnd'.2 (key_mem_of_mem hc')
      simp only [sweepEntries]
      rw [if_pos hcond]
      refine ⟨?_, ?_⟩
      · simp only [List.countP_cons, isKillEventFor]
        rw [sweep_kill_count_zero a mA mI now full habs]
        simp
      · intro c' hc'
        exact habs c' (mem_of_mem_sweep hc')
    · have hmr : (k, c) ∈ rest := by
        rcases List.mem_cons.mp hm with he | he
        · exact absurd (congrArg Prod.fst he).symm hk
        · exact he
      obtain ⟨ihc, ihm⟩ := ih hnd'.1 hmr
      simp only [sweepEntries]
      split
      · refine ⟨?_, ?_⟩
        · simp only [List.countP_cons, isKillEventFor]
          rw [ihc]
          simp [hk]
        · exact ihm
      · split
        · refine ⟨?_, ?_⟩
          · simp only [List.countP_cons, isKillEventFor]
            rw [ihc]
            simp
          · exact ihm
        · refine ⟨ihc, ?_⟩
          intro c' hc'
          rcases List.mem_cons.mp hc' with he | he
          · exact hk (congrArg Prod.fst he).symm
          · exact ihm c' he

/-! ### Time ordering: first-seen never exceeds last-seen -/

theorem timeOrdered_mono {t : Table} {n nNext : Int} (h : TimeOrdered t n)
    (hle : n ≤ nNext) : TimeOrdered t nNext :=
  fun k c hm => ⟨(h k c hm).1, le_trans (h k c hm).2 hle⟩

theorem timeOrdered_markAllInactive {t : Table} {n : Int}
    (h : TimeOrdered t n) : TimeOrdered (markAllInactive t) n := by
  intro k c hm
  obtain ⟨c₀, hm₀, he⟩ := mem_markAllInactive.mp hm
  rw [he]
  exact h k c₀ hm₀

theorem timeOrdered_upsertConn {t : Table} {n : Int} {r : ConnectionInfo}
    (h : TimeOrdered t n) : TimeOrdered (upsertConn n t r) n := by
  intro k c hm
  rcases mem_upsertConn hm with ⟨h1, _⟩ | ⟨_, ci, hci, he⟩ | ⟨_, he⟩
  · exact h k c h1
  · rw [he]
    have hc := h r.inode ci (lookupTable_mem hci)
    exact ⟨le_trans hc.1 hc.2, le_refl n⟩
  · rw [he]
    exact ⟨le_refl n, le_refl n⟩

theorem timeOrdered_foldl (n : Int) (rs : List ConnectionInfo) {t : Table}
    (h : TimeOrdered t n) : TimeOrdered (rs.foldl (upsertConn n) t) n := by
  induction rs generalizing t with
  | nil => exact h
  | cons r rs ih => exact ih (timeOrdered_upsertConn h)

theorem timeOrdered_sweep {a : Str → Str → Bool} {mA mI now : Int}
    {full : Table} {l : Table} {n : Int} (h : TimeOrdered l n) :
    TimeOrdered (sweepEntries a mA mI now full l).1 n :=
  fun k c hm => h k c (mem_of_mem_sweep hm)

theorem timeOrdered_monitorConnections (a : Str → Str → Bool)
    (mA mI : Int) {n nNext : Int} (snap : Option (List ConnectionInfo))
    {t : Table} (h : TimeOrdered t n) (hle : n ≤ nNext) :
    TimeOrdered (monitorConnections a mA mI nNext snap t).1 nNext := by
  cases snap with
  | none => exact timeOrdered_mono h hle
  | some conns =>
    exact timeOrdered_sweep
      (timeOrdered_foldl nNext conns
        (timeOrdered_markAllInactive (timeOrdered_mono h hle)))

theorem reachable_timeOrdered {a : Str → Str → Bool} {mA mI : Int}
    {t : Table} {n : Int} (h : Reachable a mA mI t n) : TimeOrdered t n := by
  induction h with
  | init m => exact fun k c hm => absurd hm (List.not_mem_nil _)
  | step nNext snap _ hle ih =>
    exact timeOrdered_monitorConnections a mA mI snap ih hle

/-! ### The active flag tracks the most recent snapshot -/

theorem activeIff_markAllInactive (t : Table) :
    ActiveIffSeen (markAllInactive t) (fun _ => False) := by
  intro k c hm
  obtain ⟨c₀, _, he⟩ := mem_markAllInactive.mp hm
  rw [he]
  simp

theorem activeIff_upsertConn {t : Table} {now : Int} {r : ConnectionInfo}
    {seen : Str → Prop} (hr : r.isActive = true) (h : ActiveIffSeen t seen) :
    ActiveIffSeen (upsertConn now t r) (fun k => seen k ∨ k = r.inode) := by
  intro k c hm
  rcases mem_upsertConn hm with ⟨h1, hne⟩ | ⟨hk, ci, hci, he⟩ | ⟨hk, he⟩
  · rw [h k c h1]
    exact ⟨Or.inl, fun hd => hd.resolve_right hne⟩
  · rw [he]
    exact iff_of_true rfl (Or.inr hk)
  · rw [he]
    exact iff_of_true hr (Or.inr hk)

theorem activeIff_foldl {now : Int} {rs : List ConnectionInfo} {t : Table}
    {seen : Str → Prop} (hrs : ∀ r ∈ rs, r.isActive = true)
    (h : ActiveIffSeen t seen) :
    ActiveIffSeen (rs.foldl (upsertConn now) t)
      (fun k => seen k ∨ k ∈ rs.map (fun r => r.inode)) := by
  induction rs generalizing t seen with
  | nil =>
    intro k c hm
    rw [h k c hm]
    simp
  | cons r rs ih =>
    intro k c hm
    have step := @activeIff_upsertConn t now r seen
      (hrs r (List.mem_cons_self r rs)) h
    have hres := ih (fun r' hr' => hrs r' (List.mem_cons_of_mem _ hr')) step
    rw [hres k c hm]
    simp only [List.map_cons, List.mem_cons]
    tauto

theorem activeIff_sweep {a : Str → Str → Bool} {mA mI now : Int}
    {full : Table} {l : Table} {seen : Str → Prop} (h : ActiveIffSeen l seen) :
    ActiveIffSeen (sweepEntries a mA mI now full l).1 seen :=
  fun k c hm => h k c (mem_of_mem_sweep hm)

theorem parseLine_isActive {line : Str} {r : ConnectionInfo}
    (h : r ∈ parseLine line) : r.isActive = true := by
  unfold parseLine at h
  split at h
  · exact absurd h (List.not_mem_nil _)
  · split at h
    · rw [List.mem_singleton.mp h]
    · exact absurd h (List.not_mem_nil _)

theorem listCurrentConnections_isActive {lines : List Str}
    {r : ConnectionInfo} (h : r ∈ listCurrentConnections lines) :
    r.isActive = true := by
  unfold listCurrentConnections at h
  obtain ⟨l, hl, hr⟩ := List.mem_flatten.mp h
  obtain ⟨line, _, he⟩ := List.mem_map.mp hl
  exact parseLine_isActive (he ▸ hr)

/-! ### Lookup through the merge fold, key by key -/

theorem lookupTable_append (t s : Table) (k : Str) :
    lookupTable (t ++ s) k =
      match lookupTable t k with
      | some c => some c
      | none => lookupTable s k := by
  induction t with
  | nil => rfl
  | cons p rest ih =>
    by_cases hp : p.1 = k
    · unfold lookupTable
      rw [List.cons_append, List.find?_cons_of_pos _ (by simpa using hp),
        List.find?_cons_of_pos _ (by simpa using hp)]
    · unfold lookupTable at *
      rw [List.cons_append, List.find?_cons_of_neg _ (by simpa using hp),
        List.find?_cons_of_neg _ (by simpa using hp)]
      exact ih

theorem lookupTable_updateEntry_of_ne {t : Table} {k k₀ : Str}
    {v : ConnectionInfo} (h : k ≠ k₀) :
    lookupTable (updateEntry t k₀ v) k = lookupTable t k := by
  induction t with
  | nil => rfl
  | cons p rest ih =>
    by_cases hp : p.1 = k
    · unfold updateEntry lookupTable
      simp only [List.map_cons]
      rw [if_neg (by simpa using hp ▸ h)]
      rw [List.find?_cons_of_pos _ (by simpa using hp),
        List.find?_cons_of_pos _ (by simpa using hp)]
    · unfold updateEntry lookupTable at *
      simp only [List.map_cons] at *
      by_cases hk₀ : p.1 = k₀
      · rw [if_pos (by simpa using hk₀)]
        rw [List.find?_cons_of_neg _ (by simpa using Ne.symm h),
          List.find?_cons_of_neg _ (by simpa using hp)]
        exact ih
      · rw [if_neg (by simpa using hk₀)]
        rw [List.find?_cons_of_neg _ (by simpa using hp),
          List.find?_cons_of_neg _ (by simpa using hp)]
        exact ih

theorem find?_decomp {α : Type _} {p : α → Bool} {l : List α} {b : α}
    (h : l.find? p = some b) :
    p b = true ∧ ∃ pre post, l = pre ++ b :: post ∧ ∀ a ∈ pre, p a = false := by
  induction l with
  | nil => simp [List.find?] at h
  | cons x xs ih =>
    by_cases hx : p x = true
    · rw [List.find?_cons_of_pos _ hx] at h
      have hb : x = b := by simpa using h
      subst hb
      exact ⟨hx, [], xs, rfl, fun a ha => absurd ha (List.not_mem_nil a)⟩
    · rw [List.find?_cons_of_neg _ hx] at h
      obtain ⟨hpb, pre, post, hl, hpre⟩ := ih h
      refine ⟨hpb, x :: pre, post, by rw [List.cons_append, ← hl], ?_⟩
      intro a ha
      rcases List.mem_cons.mp ha with he | he
      · rw [he]
        exact Bool.eq_false_iff.mpr hx
      · exact hpre a he

theorem lookupTable_upsertConn_insert {now : Int} {t : Table}
    {r : ConnectionInfo} (h : lookupTable t r.inode = none) :
    lookupTable (upsertConn now t r) r.inode =
      some { r with timeAdded := now, lastSeen := now } := by
  unfold upsertConn
  rw [h]
  show lookupTable (t ++ [(r.inode, { r with timeAdded := now, lastSeen := now })])
    r.inode = some { r with timeAdded := now, lastSeen := now }
  rw [lookupTable_append, h]
  show lookupTable [(r.inode, { r with timeAdded := now, lastSeen := now })]
    r.inode = some { r with timeAdded := now, lastSeen := now }
  unfold lookupTable
  rw [List.find?_cons_of_pos _ (by simp)]

theorem upsertConn_of_lookup_some {now : Int} {t : Table}
    {r ci : ConnectionInfo} (h : lookupTable t r.inode = some ci) :
    upsertConn now t r =
      updateEntry t r.inode { ci with lastSeen := now, isActive := true } := by
  unfold upsertConn
  rw [h]

theorem lookupTable_upsertConn_of_ne {now : Int} {t : Table}
    {r : ConnectionInfo} {k : Str} (h : k ≠ r.inode) :
    lookupTable (upsertConn now t r) k = lookupTable t k := by
  unfold upsertConn
  cases hl : lookupTable t r.inode with
  | some ci => exact lookupTable_updateEntry_of_ne h
  | none =>
    rw [lookupTable_append]
    cases hk : lookupTable t k with
    | some c => rfl
    | none =>
      unfold lookupTable
      rw [List.find?_cons_of_neg _ (by simpa using Ne.symm h)]
      rfl

theorem lookupTable_foldl_of_not_mem {now : Int} {rs : List ConnectionInfo}
    {t : Table} {k : Str} (h : k ∉ rs.map (fun r => r.inode)) :
    lookupTable (rs.foldl (upsertConn now) t) k = lookupTable t k := by
  induction rs generalizing t with
  | nil => rfl
  | cons r rs ih =>
    simp only [List.map_cons, List.mem_cons] at h
    push_neg at h
    rw [List.foldl_cons, ih h.2, lookupTable_upsertConn_of_ne h.1]

theorem lookupTable_foldl_of_mem {now : Int} {rs : List ConnectionInfo}
    {t : Table} {k : Str} {c : ConnectionInfo}
    (hl : lookupTable t k = some c) (hk : k ∈ rs.map (fun r => r.inode)) :
    lookupTable (rs.foldl (upsertConn now) t) k =
      some { c with lastSeen := now, isActive := true } := by
  induction rs generalizing t c with
  | nil => exact absurd hk (List.not_mem_nil _)
  | cons r rs ih =>
    rw [List.foldl_cons]
    by_cases hr : r.inode = k
    · have hup : lookupTable (upsertConn now t r) k =
          some { c with lastSeen := now, isActive := true } := by
        unfold upsertConn
        rw [hr, hl]
        exact lookupTable_updateEntry_self hl
      by_cases hm : k ∈ rs.map (fun r => r.inode)
      · exact (ih hup hm).trans rfl
      · rw [lookupTable_foldl_of_not_mem hm, hup]
    · have hk' : k ∈ rs.map (fun r => r.inode) := by
        rcases List.mem_cons.mp hk with he | he
        · exact absurd he.symm hr
        · exact he
      exact ih (by rw [lookupTable_upsertConn_of_ne (fun he => hr he.symm), hl]) hk'

/-! ### Key multiplicity -/

theorem countKey_eq_zero {t : Table} {k : Str} (h : ∀ c, (k, c) ∉ t) :
    countKey t k = 0 := by
  unfold countKey
  rw [List.length_eq_zero, List.filter_eq_nil_iff]
  rintro ⟨k₀, c₀⟩ hm
  intro hb
  have : k₀ = k := by simpa using hb
  exact h c₀ (this ▸ hm)

theorem countKey_eq_one {t : Table} {k : Str} {c : ConnectionInfo}
    (hnd : NoDupKeys t) (hm : (k, c) ∈ t) : countKey t k = 1 := by
  induction t with
  | nil => exact absurd hm (List.not_mem_nil _)
  | cons p rest ih =>
    obtain ⟨k₀, c₀⟩ := p
    have hnd' : NoDupKeys rest ∧ k₀ ∉ rest.map Prod.fst := by
      have := hnd
      unfold NoDupKeys at this
      rw [List.map_cons, List.nodup_cons] at this
      exact ⟨this.2, this.1⟩
    by_cases hk : k₀ = k
    · subst hk
      have habs : ∀ c', (k₀, c') ∉ rest := by
        intro c' hc'
        exact hnd'.2 (key_mem_of_mem hc')
      unfold countKey
      rw [List.filter_cons_of_pos (by simp)]
      have h0 := countKey_eq_zero habs
      unfold countKey at h0
      simp [h0]
    · have hmr : (k, c) ∈ rest := by
        rcases List.mem_cons.mp hm with he | he
        · exact absurd (congrArg Prod.fst he).symm hk
        · exact he
      unfold countKey
      rw [List.filter_cons_of_neg (by simpa using hk)]
      exact ih hnd'.1 hmr

theorem mem_eq_of_lookup_of_noDup {t : Table} {k : Str} {e c : ConnectionInfo}
    (hnd : NoDupKeys t) (hl : lookupTable t k = some e) (hm : (k, c) ∈ t) :
    c = e := by
  induction t with
  | nil => exact absurd hm (List.not_mem_nil _)
  | cons p rest ih =>
    obtain ⟨k₀, c₀⟩ := p
    have hnd' : NoDupKeys rest ∧ k₀ ∉ rest.map Prod.fst := by
      have := hnd
      unfold NoDupKeys at this
      rw [List.map_cons, List.nodup_cons] at this
      exact ⟨this.2, this.1⟩
    by_cases hk : k₀ = k
    · subst hk
      have he : c₀ = e := by
        unfold lookupTable at hl
        rw [List.find?_cons_of_pos _ (by simp)] at hl
        simpa using hl
      rcases List.mem_cons.mp hm with hh | hh
      · rw [← he]
        exact congrArg Prod.snd hh
      · exact absurd (key_mem_of_mem hh) hnd'.2
    · have hmr : (k, c) ∈ rest := by
        rcases List.mem_cons.mp hm with hh | hh
        · exact absurd (congrArg Prod.fst hh).symm hk
        · exact hh
      unfold lookupTable at hl
      rw [List.find?_cons_of_neg _ (by simpa using hk)] at hl
      exact ih hnd'.1 hl hmr

theorem lookupTable_eq_some_of_mem {t : Table} {k : Str} {c : ConnectionInfo}
    (hnd : NoDupKeys t) (hm : (k, c) ∈ t) : lookupTable t k = some c := by
  cases hl : lookupTable t k with
  | none => exact absurd hl (lookupTable_ne_none_of_mem hm)
  | some e => rw [mem_eq_of_lookup_of_noDup hnd hl hm]

/-! ### Shape of parsed connection IDs -/

theorem goFieldsAux_no_whitespace (cs : Str) :
    ∀ (acc : Str), (∀ ch ∈ acc, ch.isWhitespace = false) →
      ∀ f ∈ goFieldsAux cs acc, ∀ ch ∈ f, ch.isWhitespace = false := by
  induction cs with
  | nil =>
    intro acc hacc f hf ch hch
    unfold goFieldsAux at hf
    split at hf
    · exact absurd hf (List.not_mem_nil _)
    · have he : f = acc.reverse := List.mem_singleton.mp hf
      subst he
      exact hacc ch (List.mem_reverse.mp hch)
  | cons c rest ih =>
    intro acc hacc f hf ch hch
    unfold goFieldsAux at hf
    by_cases hw : c.isWhitespace = true
    · rw [if_pos hw] at hf
      split at hf
      · exact ih [] (fun ch' h' => absurd h' (List.not_mem_nil _)) f hf ch hch
      · rcases List.mem_cons.mp hf with he | he
        · subst he
          exact hacc ch (List.mem_reverse.mp hch)
        · exact ih [] (fun _ h' => absurd h' (List.not_mem_nil _)) f he ch hch
    · rw [if_neg hw] at hf
      refine ih (c :: acc) ?_ f hf ch hch
      intro ch' h'
      rcases List.mem_cons.mp h' with he | he
      · subst he
        exact Bool.eq_false_iff.mpr hw
      · exact hacc ch' he

theorem goFields_no_whitespace {cs : Str} {f : Str} (hf : f ∈ goFields cs) :
    ∀ ch ∈ f, ch.isWhitespace = false :=
  goFieldsAux_no_whitespace cs [] (fun _ h' => absurd h' (List.not_mem_nil _)) f hf

theorem parseLine_connectionID {line : Str} {r : ConnectionInfo}
    (h : r ∈ parseLine line) :
    ∃ l p, r.connectionID = l ++ arrowSep ++ p ∧
      (∀ ch ∈ l, ch.isWhitespace = false) ∧
      (∀ ch ∈ p, ch.isWhitespace = false) := by
  unfold parseLine at h
  split at h
  · exact absurd h (List.not_mem_nil _)
  · split at h
    · have he := List.mem_singleton.mp h
      subst he
      refine ⟨(goFields line).getD 3 [], (goFields line).getD 4 [], rfl, ?_, ?_⟩
      · have h3 : (goFields line).getD 3 [] ∈ goFields line := by
          rw [List.getD_eq_getElem _ _ (by omega)]
          exact List.getElem_mem _
        exact goFields_no_whitespace h3
      · have h4 : (goFields line).getD 4 [] ∈ goFields line := by
          rw [List.getD_eq_getElem _ _ (by omega)]
          exact List.getElem_mem _
        exact goFields_no_whitespace h4
    · exact absurd h (List.not_mem_nil _)

theorem listCurrentConnections_connectionID {lines : List Str}
    {r : ConnectionInfo} (h : r ∈ listCurrentConnections lines) :
    ∃ l p, r.connectionID = l ++ arrowSep ++ p ∧
      (∀ ch ∈ l, ch.isWhitespace = false) ∧
      (∀ ch ∈ p, ch.isWhitespace = false) := by
  unfold listCurrentConnections at h
  obtain ⟨l, hl, hr⟩ := List.mem_flatten.mp h
  obtain ⟨line, _, he⟩ := List.mem_map.mp hl
  exact parseLine_connectionID (he ▸ hr)

theorem splitArrow_no_space {p : Str} (h : ∀ ch ∈ p, ch.isWhitespace = false) :
    splitArrow p = [p] := by
  induction p with
  | nil => simp [splitArrow]
  | cons c rest ih =>
    have hneg : ¬((c :: rest).take 4 = arrowSep) := by
      intro hEq
      have hce : c = ' ' := congrArg List.headI hEq
      have hw := h c (List.mem_cons_self c rest)
      rw [hce] at hw
      exact absurd hw (by decide)
    unfold splitArrow
    rw [if_neg hneg, ih (fun ch hch => h ch (List.mem_cons_of_mem _ hch))]

theorem splitArrow_append {l p : Str}
    (hl : ∀ ch ∈ l, ch.isWhitespace = false)
    (hp : ∀ ch ∈ p, ch.isWhitespace = false) :
    splitArrow (l ++ arrowSep ++ p) = [l, p] := by
  induction l with
  | nil =>
    show splitArrow (' ' :: '-' :: '>' :: ' ' :: p) = [[], p]
    unfold splitArrow
    rw [if_pos (show List.take 4 (' ' :: '-' :: '>' :: ' ' :: p) = arrowSep from rfl)]
    show ([] : Str) :: splitArrow p = [[], p]
    rw [splitArrow_no_space hp]
  | cons c l' ih =>
    have hc : c.isWhitespace = false := hl c (List.mem_cons_self c l')
    have hneg : ¬((c :: (l' ++ arrowSep ++ p)).take 4 = arrowSep) := by
      intro hEq
      have hce : c = ' ' := congrArg List.headI hEq
      rw [hce] at hc
      exact absurd hc (by decide)
    show splitArrow (c :: (l' ++ arrowSep ++ p)) = [c :: l', p]
    unfold splitArrow
    rw [if_neg hneg, ih (fun ch hch => hl ch (List.mem_cons_of_mem _ hch))]

theorem goodID_markAllInactive {t : Table} (h : GoodID t) :
    GoodID (markAllInactive t) := by
  intro k c hm
  obtain ⟨c₀, hm₀, he⟩ := mem_markAllInactive.mp hm
  rw [he]
  exact h k c₀ hm₀

theorem goodID_upsertConn {t : Table} {now : Int} {r : ConnectionInfo}
    (hr : ∃ l p, r.connectionID = l ++ arrowSep ++ p ∧
      (∀ ch ∈ l, ch.isWhitespace = false) ∧
      (∀ ch ∈ p, ch.isWhitespace = false))
    (h : GoodID t) : GoodID (upsertConn now t r) := by
  intro k c hm
  rcases mem_upsertConn hm with ⟨h1, _⟩ | ⟨_, ci, hci, he⟩ | ⟨_, he⟩
  · exact h k c h1
  · rw [he]
    exact h r.inode ci (lookupTable_mem hci)
  · rw [he]
    exact hr

theorem goodID_foldl {now : Int} {rs : List ConnectionInfo} {t : Table}
    (hrs : ∀ r ∈ rs, ∃ l p, r.connectionID = l ++ arrowSep ++ p ∧
      (∀ ch ∈ l, ch.isWhitespace = false) ∧
      (∀ ch ∈ p, ch.isWhitespace = false))
    (h : GoodID t) : GoodID (rs.foldl (upsertConn now) t) := by
  induction rs generalizing t with
  | nil => exact h
  | cons r rs ih =>
    exact ih (fun r' hr' => hrs r' (List.mem_cons_of_mem _ hr'))
      (goodID_upsertConn (hrs r (List.mem_cons_self r rs)) h)

theorem goodID_mergePhase {now : Int} {lines : List Str} {t : Table}
    (h : GoodID t) :
    GoodID (mergePhase now (listCurrentConnections lines) t) :=
  goodID_foldl (fun _ hr' => listCurrentConnections_connectionID hr')
    (goodID_markAllInactive h)

theorem goodID_sweep {a : Str → Str → Bool} {mA mI now : Int}
    {full : Table} {l : Table} (h : GoodID l) :
    GoodID (sweepEntries a mA mI now full l).1 :=
  fun k c hm => h k c (mem_of_mem_sweep hm)

theorem reachableP_goodID {a : Str → Str → Bool} {mA mI : Int} {t : Table}
    (h : ReachableP a mA mI t) : GoodID t := by
  induction h with
  | init => exact fun k c hm => absurd hm (List.not_mem_nil _)
  | step now lines _ ih => exact goodID_sweep (goodID_mergePhase ih)

theorem killConnection_eq_of_lookup {a : Str → Str → Bool} {t : Table}
    {k : Str} {ci : ConnectionInfo} (hl : lookupTable t k = some ci) :
    killConnection a t k =
      match splitArrow ci.connectionID with
      | [localAddr, peerAddr] =>
        KillOutcome.execResult localAddr peerAddr (a localAddr peerAddr)
      | _ => KillOutcome.invalidFormat := by
  unfold killConnection
  rw [hl]

theorem killConnection_execResult {a : Str → Str → Bool} {t : Table}
    {k : Str} {c : ConnectionInfo} (hg : GoodID t) (hm : (k, c) ∈ t) :
    ∃ l p ok, killConnection a t k = KillOutcome.execResult l p ok := by
  cases hl : lookupTable t k with
  | none => exact absurd hl (lookupTable_ne_none_of_mem hm)
  | some ci =>
    obtain ⟨l, p, he, hwl, hwp⟩ := hg k ci (lookupTable_mem hl)
    refine ⟨l, p, a l p, ?_⟩
    rw [killConnection_eq_of_lookup hl, he, splitArrow_append hwl hwp]

/-! ### The claims -/

/-- C1 (counterexample): in the spec's worked example
(`max-active=120m`, `max-inactive=60m`, `check-interval=30m`, `abc`
observed in every snapshot from t=0), the claim that `abc` is killed and
evicted at the cycle running at t=120 is false: the kill test
`now - TimeAdded > maxActiveDuration` is strict, 120 minutes is not
greater than 120 minutes, so `abc` is still tracked after the t=120 cycle
and that cycle emits no kill or removal event. -/
theorem c1_counterexample :
    lookupTable tableAt120 ("abc".data) ≠ none ∧
      (exampleCycle 120 [abcRec] tableAt90).2 = [] := by
  exact ⟨by decide, by decide⟩

/-- C1 (amended): in the worked example, `xyz` is retained and inactive
at t=30, still tracked at t=60, and evicted at t=90; `abc` is still
tracked and active after the t=120 cycle and is killed and evicted at the
cycle running at t=150, with exactly one actuator invocation. -/
theorem c1_amended :
    (lookupTable tableAt30 ("xyz".data)).map ConnectionInfo.isActive =
        some false ∧
      (lookupTable tableAt60 ("xyz".data)).isSome = true ∧
      lookupTable tableAt90 ("xyz".data) = none ∧
      (lookupTable tableAt120 ("abc".data)).map ConnectionInfo.isActive =
        some true ∧
      resultAt150.2.countP (isKillEventFor ("abc".data)) = 1 ∧
      lookupTable resultAt150.1 ("abc".data) = none := by
  decide

/-- C2: when the kill rule fires for a merged entry (its age exceeds the
maximum active duration and it is active), the cycle invokes the
termination actuator exactly once for that inode, the entry is gone from
the resulting table, and the resulting table is the same whatever the
actuator outcomes are. -/
theorem c2_kill_once_and_evict (a aAlt : Str → Str → Bool)
    (mA mI now : Int) (snap : List ConnectionInfo) (t : Table)
    (k : Str) (c : ConnectionInfo) (hnd : NoDupKeys t)
    (hm : (k, c) ∈ mergePhase now snap t)
    (hage : now - c.timeAdded > mA * minuteNs) (hact : c.isActive = true) :
    (monitorConnections a mA mI now (some snap) t).2.countP
        (isKillEventFor k) = 1 ∧
      lookupTable (monitorConnections a mA mI now (some snap) t).1 k = none ∧
      (monitorConnections a mA mI now (some snap) t).1 =
        (monitorConnections aAlt mA mI now (some snap) t).1 := by
  have hndm := noDupKeys_mergePhase now snap hnd
  have hk := @sweep_kill_fires a (mA * minuteNs) (mI * minuteNs) now
    (mergePhase now snap t) k c (mergePhase now snap t) hndm hm ⟨hage, hact⟩
  have hmc : monitorConnections a mA mI now (some snap) t =
      sweepEntries a (mA * minuteNs) (mI * minuteNs) now
        (mergePhase now snap t) (mergePhase now snap t) := rfl
  have hmcAlt : monitorConnections aAlt mA mI now (some snap) t =
      sweepEntries aAlt (mA * minuteNs) (mI * minuteNs) now
        (mergePhase now snap t) (mergePhase now snap t) := rfl
  refine ⟨?_, ?_, ?_⟩
  · rw [hmc]
    exact hk.1
  · rw [hmc]
    exact lookupTable_eq_none_iff.mpr hk.2
  · rw [hmc, hmcAlt]
    exact sweepEntries_fst_indep a aAlt (mA * minuteNs) (mI * minuteNs) now
      (mergePhase now snap t) (mergePhase now snap t) (mergePhase now snap t)

/-- C2 (witness): the kill of `abc` at t=150 in the worked example. -/
theorem c2_witness :
    NoDupKeys tableAt0 ∧
      ("abc".data, mergedAbc150) ∈
        mergePhase (150 * minuteNs) [abcRec] tableAt0 ∧
      150 * minuteNs - mergedAbc150.timeAdded > 120 * minuteNs ∧
      mergedAbc150.isActive = true ∧
      ((monitorConnections alwaysOk 120 60 (150 * minuteNs) (some [abcRec])
            tableAt0).2.countP (isKillEventFor ("abc".data)) = 1 ∧
        lookupTable (monitorConnections alwaysOk 120 60 (150 * minuteNs)
            (some [abcRec]) tableAt0).1 ("abc".data) = none ∧
        (monitorConnections alwaysOk 120 60 (150 * minuteNs) (some [abcRec])
            tableAt0).1 =
          (monitorConnections neverOk 120 60 (150 * minuteNs) (some [abcRec])
            tableAt0).1) :=
  ⟨by decide, by decide, by decide, by decide,
    c2_kill_once_and_evict alwaysOk neverOk 120 60 (150 * minuteNs) [abcRec]
      tableAt0 ("abc".data) mergedAbc150 (by decide) (by decide) (by decide)
      (by decide)⟩

/-- C3: in every reachable state of the tracking table (cycles run from
the empty table with non-decreasing clock), every tracked entry satisfies
`TimeAdded ≤ LastSeen`. -/
theorem c3_first_seen_le_last_seen (a : Str → Str → Bool) (mA mI : Int)
    {t : Table} {n : Int} (h : Reachable a mA mI t n)
    (k : Str) (c : ConnectionInfo) (hm : (k, c) ∈ t) :
    c.timeAdded ≤ c.lastSeen :=
  (reachable_timeOrdered h k c hm).1

/-- C3 (witness): the invariant at the concrete table reached after the
t=0 and t=30 cycles of the worked example. -/
theorem c3_witness :
    Reachable alwaysOk 120 60 tableAt30 (30 * minuteNs) ∧
      ("abc".data, trackedAbc30) ∈ tableAt30 ∧
      trackedAbc30.timeAdded ≤ trackedAbc30.lastSeen :=
  have hr : Reachable alwaysOk 120 60 tableAt30 (30 * minuteNs) :=
    Reachable.step (30 * minuteNs) (some [abcRec])
      (Reachable.step (0 * minuteNs) (some [abcRec, xyzRec])
        (Reachable.init 0) (by decide))
      (by decide)
  ⟨hr, by decide,
    c3_first_seen_le_last_seen alwaysOk 120 60 hr ("abc".data) trackedAbc30
      (by decide)⟩

/-- C4: after a successful cycle (snapshot enumeration produced lines),
a tracked entry is active exactly when its identifier appeared in that
cycle's parsed snapshot. -/
theorem c4_active_iff_in_snapshot (a : Str → Str → Bool) (mA mI now : Int)
    (lines : List Str) (t : Table) (k : Str) (c : ConnectionInfo)
    (hm : (k, c) ∈ (monitorConnections a mA mI now
      (some (listCurrentConnections lines)) t).1) :
    c.isActive = true ↔
      k ∈ (listCurrentConnections lines).map (fun r => r.inode) := by
  have hmc : (monitorConnections a mA mI now
      (some (listCurrentConnections lines)) t).1 =
      (sweepEntries a (mA * minuteNs) (mI * minuteNs) now
        (mergePhase now (listCurrentConnections lines) t)
        (mergePhase now (listCurrentConnections lines) t)).1 := rfl
  rw [hmc] at hm
  have hfold := @activeIff_foldl now (listCurrentConnections lines)
    (markAllInactive t) (fun _ => False)
    (fun r hr => listCurrentConnections_isActive hr)
    (activeIff_markAllInactive t)
  have hsw := @activeIff_sweep a (mA * minuteNs) (mI * minuteNs) now
    (mergePhase now (listCurrentConnections lines) t)
    (mergePhase now (listCurrentConnections lines) t) _ hfold
  have := hsw k c hm
  simpa using this

/-- C4 (witness): connection 42 parsed from `goodLine` is active after a
cycle at t=0, and its inode is in the snapshot. -/
theorem c4_witness :
    ("42".data, tracked42) ∈ (monitorConnections alwaysOk 120 60 0
        (some (listCurrentConnections [goodLine])) []).1 ∧
      (tracked42.isActive = true ↔
        "42".data ∈ (listCurrentConnections [goodLine]).map
          (fun r => r.inode)) :=
  ⟨by decide,
    c4_active_iff_in_snapshot alwaysOk 120 60 0 [goodLine] [] ("42".data)
      tracked42 (by decide)⟩

/-- C5: an identifier present in two consecutive snapshots has, after the
second cycle's merge phase, exactly one entry in the table; that entry's
`LastSeen` is the second cycle's `now` and its `TimeAdded` is unchanged
from the value it had after the first cycle. -/
theorem c5_refresh_keeps_first_seen (a : Str → Str → Bool) (mA mI : Int)
    (now1 now2 : Int) (snap1 snap2 : List ConnectionInfo) (t0 : Table)
    (k : Str) (c1 : ConnectionInfo) (hnd : NoDupKeys t0)
    (_hk1 : k ∈ snap1.map (fun r => r.inode))
    (hm1 : (k, c1) ∈ (monitorConnections a mA mI now1 (some snap1) t0).1)
    (hk2 : k ∈ snap2.map (fun r => r.inode)) :
    countKey (mergePhase now2 snap2
        (monitorConnections a mA mI now1 (some snap1) t0).1) k = 1 ∧
      ∀ c, (k, c) ∈ mergePhase now2 snap2
          (monitorConnections a mA mI now1 (some snap1) t0).1 →
        c.lastSeen = now2 ∧ c.timeAdded = c1.timeAdded := by
  have hnd1 : NoDupKeys (monitorConnections a mA mI now1 (some snap1) t0).1 :=
    noDupKeys_monitorConnections a mA mI now1 (some snap1) hnd
  have hl1 : lookupTable (monitorConnections a mA mI now1 (some snap1) t0).1
      k = some c1 := lookupTable_eq_some_of_mem hnd1 hm1
  have hlm : lookupTable
      (markAllInactive (monitorConnections a mA mI now1 (some snap1) t0).1) k =
      some { c1 with isActive := false } := by
    rw [lookupTable_markAllInactive, hl1]
    rfl
  have hfold : lookupTable (mergePhase now2 snap2
      (monitorConnections a mA mI now1 (some snap1) t0).1) k =
      some { c1 with lastSeen := now2, isActive := true } :=
    (lookupTable_foldl_of_mem hlm hk2).trans rfl
  have hndm : NoDupKeys (mergePhase now2 snap2
      (monitorConnections a mA mI now1 (some snap1) t0).1) :=
    noDupKeys_mergePhase now2 snap2 hnd1
  refine ⟨countKey_eq_one hndm (lookupTable_mem hfold), ?_⟩
  intro c hc
  rw [mem_eq_of_lookup_of_noDup hndm hfold hc]
  exact ⟨rfl, rfl⟩

/-- C5 (witness): `abc` observed at t=0 and again at t=30. -/
theorem c5_witness :
    NoDupKeys ([] : Table) ∧
      "abc".data ∈ [abcRec].map (fun r => r.inode) ∧
      ("abc".data, trackedAbc0) ∈ tableAbcOnly ∧
      countKey (mergePhase (30 * minuteNs) [abcRec] tableAbcOnly)
        ("abc".data) = 1 :=
  ⟨by decide, by decide, by decide,
    (c5_refresh_keeps_first_seen alwaysOk 120 60 0 (30 * minuteNs) [abcRec]
      [abcRec] [] ("abc".data) trackedAbc0 (by decide) (by decide)
      (by decide) (by decide)).1⟩

/-- C6: a failed snapshot enumeration aborts the cycle immediately: the
tracking table is returned unchanged (no entry added, removed, or
mutated) and no kill or removal event is emitted. -/
theorem c6_snapshot_failure_noop (a : Str → Str → Bool) (mA mI now : Int)
    (t : Table) : monitorConnections a mA mI now none t = (t, []) := rfl

/-- C7 (counterexample): two records with the same inode in one snapshot,
merged into an empty table, leave an entry whose `ConnectionID` is the
FIRST record's, not the last one's, refuting "the last one parsed wins"
for the endpoint pair. -/
theorem c7_counterexample :
    (lookupTable (mergePhase 5 [dupRec1, dupRec2] []) ("77".data)).map
        ConnectionInfo.connectionID = some dupRec1.connectionID ∧
      dupRec1.connectionID ≠ dupRec2.connectionID := by
  decide

/-- C7 (amended): when one snapshot contains two or more observed records
with the same, not previously tracked, identifier, the cycle's merge
yields exactly one tracked entry for it; that entry's endpoint pair /
`ConnectionID` comes from the FIRST of the duplicate records (the one
that created the entry), its `TimeAdded` and `LastSeen` are the cycle's
`now` and it is active — the later duplicates only refresh `LastSeen` and
the active flag, never the endpoint pair. -/
theorem c7_amended_first_record_wins (now : Int) (t : Table)
    (snap : List ConnectionInfo) (k : Str) (r1 : ConnectionInfo)
    (hnd : NoDupKeys t) (habs : lookupTable t k = none)
    (hfirst : snap.find? (fun r => r.inode == k) = some r1)
    (hdup : 2 ≤ (snap.filter (fun r => r.inode == k)).length) :
    countKey (mergePhase now snap t) k = 1 ∧
      ∀ c, (k, c) ∈ mergePhase now snap t →
        c.connectionID = r1.connectionID ∧ c.timeAdded = now ∧
          c.lastSeen = now ∧ c.isActive = true := by
  obtain ⟨hpb, pre, post, hsnap, hpre⟩ := find?_decomp hfirst
  have hr1k : r1.inode = k := by simpa using hpb
  have hprek : k ∉ pre.map (fun r => r.inode) := by
    intro hmem
    obtain ⟨r, hr, he⟩ := List.mem_map.mp hmem
    have hfalse := hpre r hr
    rw [he] at hfalse
    simp at hfalse
  have hpostk : k ∈ post.map (fun r => r.inode) := by
    have hfilter_pre : pre.filter (fun r => r.inode == k) = [] :=
      List.filter_eq_nil_iff.mpr (fun a ha => by simp [hpre a ha])
    have hfilter : snap.filter (fun r => r.inode == k) =
        r1 :: post.filter (fun r => r.inode == k) := by
      rw [hsnap, List.filter_append, hfilter_pre, List.nil_append,
        List.filter_cons_of_pos]
      exact hpb
    rw [hfilter, List.length_cons] at hdup
    have hne : post.filter (fun r => r.inode == k) ≠ [] := by
      intro h0
      rw [h0] at hdup
      simp at hdup
    obtain ⟨r2, hr2⟩ := List.exists_mem_of_ne_nil _ hne
    have hr2m := List.mem_filter.mp hr2
    exact List.mem_map.mpr ⟨r2, hr2m.1, by simpa using hr2m.2⟩
  have ht0 : lookupTable (markAllInactive t) k = none := by
    rw [lookupTable_markAllInactive, habs]
    rfl
  have hpreFold :
      lookupTable (pre.foldl (upsertConn now) (markAllInactive t)) k = none := by
    rw [lookupTable_foldl_of_not_mem hprek]
    exact ht0
  have hIns : lookupTable (upsertConn now
      (pre.foldl (upsertConn now) (markAllInactive t)) r1) k =
      some { r1 with timeAdded := now, lastSeen := now } := by
    rw [← hr1k]
    exact lookupTable_upsertConn_insert (by rw [hr1k]; exact hpreFold)
  have hPostFold : lookupTable (mergePhase now snap t) k =
      some { r1 with timeAdded := now, lastSeen := now, isActive := true } := by
    have hsplit : mergePhase now snap t =
        post.foldl (upsertConn now)
          (upsertConn now (pre.foldl (upsertConn now) (markAllInactive t))
            r1) := by
      unfold mergePhase
      rw [hsnap, List.foldl_append, List.foldl_cons]
    rw [hsplit]
    exact (lookupTable_foldl_of_mem hIns hpostk).trans rfl
  have hndm : NoDupKeys (mergePhase now snap t) :=
    noDupKeys_mergePhase now snap hnd
  refine ⟨countKey_eq_one hndm (lookupTable_mem hPostFold), ?_⟩
  intro c hc
  rw [mem_eq_of_lookup_of_noDup hndm hPostFold hc]
  exact ⟨rfl, rfl, rfl, rfl⟩

/-- C7 (witness): a snapshot with an unrelated record followed by two
records sharing inode 77, merged into the empty table at t=3. -/
theorem c7_witness :
    NoDupKeys ([] : Table) ∧
      lookupTable ([] : Table) ("77".data) = none ∧
      [abcRec, dupRec1, dupRec2].find? (fun r => r.inode == "77".data) =
        some dupRec1 ∧
      2 ≤ ([abcRec, dupRec1, dupRec2].filter
        (fun r => r.inode == "77".data)).length ∧
      countKey (mergePhase 3 [abcRec, dupRec1, dupRec2] []) ("77".data) = 1 :=
  ⟨by decide, by decide, by decide, by decide,
    (c7_amended_first_record_wins 3 [] [abcRec, dupRec1, dupRec2]
      ("77".data) dupRec1 (by decide) (by decide) (by decide) (by decide)).1⟩

/-- C8: a line in which the `ino:<digits>` pattern does not match yields
no record, and the records of all other lines are exactly those produced
had the bad line been absent. -/
theorem c8_unmatched_line_skipped (pre post : List Str) (bad : Str)
    (h : findInode bad = none) :
    parseLine bad = [] ∧
      listCurrentConnections (pre ++ bad :: post) =
        listCurrentConnections (pre ++ post) := by
  have hp : parseLine bad = [] := by
    unfold parseLine
    rw [h]
  exact ⟨hp, by simp [listCurrentConnections, hp]⟩

/-- C8 (witness): a garbage line between parses of a well-formed line. -/
theorem c8_witness :
    findInode badLine = none ∧
      parseLine badLine = [] ∧
      listCurrentConnections [goodLine, badLine] =
        listCurrentConnections [goodLine] :=
  ⟨by decide,
    (c8_unmatched_line_skipped [goodLine] [] badLine (by decide)).1,
    (c8_unmatched_line_skipped [goodLine] [] badLine (by decide)).2⟩

/-- C9: a line that contains the inode pattern but fewer than five
whitespace-separated fields produces no record (silently), and the other
lines parse exactly as if it were absent. -/
theorem c9_short_line_dropped (pre post : List Str) (line ino : Str)
    (h1 : findInode line = some ino) (h2 : (goFields line).length < 5) :
    parseLine line = [] ∧
      listCurrentConnections (pre ++ line :: post) =
        listCurrentConnections (pre ++ post) := by
  have h5 : ¬((goFields line).length ≥ 5) := by omega
  have hp : parseLine line = [] := by
    simp [parseLine, h1, h5]
  exact ⟨hp, by simp [listCurrentConnections, hp]⟩

/-- C9 (witness): a three-field line carrying an inode pattern. -/
theorem c9_witness :
    findInode shortLine = some ("12".data) ∧
      (goFields shortLine).length < 5 ∧
      parseLine shortLine = [] ∧
      listCurrentConnections [goodLine, shortLine] =
        listCurrentConnections [goodLine] :=
  ⟨by decide, by decide,
    (c9_short_line_dropped [goodLine] [] shortLine ("12".data) (by decide)
      (by decide)).1,
    (c9_short_line_dropped [goodLine] [] shortLine ("12".data) (by decide)
      (by decide)).2⟩

/-- C10: when the kill rule fires for an entry of the merged table of a
cycle over parser-produced snapshots (starting from the empty table),
`killConnection` reaches neither of its error branches: the inode is
still present (deletion only happens after the call) and the
`ConnectionID` splits on `" -> "` into exactly two parts, so the call
reaches the external `ss --kill` invocation. -/
theorem c10_kill_branches_unreachable (a : Str → Str → Bool) (mA mI : Int)
    {t : Table} (h : ReachableP a mA mI t) (now : Int) (lines : List Str)
    (k : Str) (c : ConnectionInfo)
    (hm : (k, c) ∈ mergePhase now (listCurrentConnections lines) t)
    (_hage : now - c.timeAdded > mA * minuteNs)
    (_hact : c.isActive = true) :
    ∃ l p ok,
      killConnection a (mergePhase now (listCurrentConnections lines) t) k =
        KillOutcome.execResult l p ok :=
  killConnection_execResult (goodID_mergePhase (reachableP_goodID h)) hm

/-- C10 (witness): connection 42, tracked since t=0, qualifies for the
kill rule at t=200 minutes and the kill call reaches the actuator. -/
theorem c10_witness :
    ReachableP alwaysOk 120 60 table42 ∧
      ("42".data, merged42) ∈
        mergePhase (200 * minuteNs) (listCurrentConnections [goodLine])
          table42 ∧
      200 * minuteNs - merged42.timeAdded > 120 * minuteNs ∧
      merged42.isActive = true ∧
      ∃ l p ok,
        killConnection alwaysOk
          (mergePhase (200 * minuteNs) (listCurrentConnections [goodLine])
            table42) ("42".data) = KillOutcome.execResult l p ok :=
  have hr : ReachableP alwaysOk 120 60 table42 :=
    ReachableP.step 0 [goodLine] ReachableP.init
  ⟨hr, by decide, by decide, by decide,
    c10_kill_branches_unreachable alwaysOk 120 60 hr (200 * minuteNs)
      [goodLine] ("42".data) merged42 (by decide) (by decide) (by decide)⟩

end DeadSocketDropper
